import Mathlib

set_option maxHeartbeats 1000000

/-!
Verification of the `config` Go package (pkg.go): an in-memory document
model (`Config = map[string]any`) with nested-path access (`Get`, `Set`,
`HasKeyNested`), recursive merge (`Update`), fuzzy key matching
(`UniqueKeyMatchOf`), path translation (`Translation.Apply`) and
structural type comparison (`CompareTypes`).

The JSON value universe is embedded as the inductive `Value`; a document
(Go `map[string]any`) is an association list with unique keys, its
semantics given by `lookupE` / `insertE` (lookup and replace-or-append,
the extensional behaviour of a Go map write).  Go's unordered map
iteration is modelled by the list order of the entries; order-dependence
is analysed explicitly where it matters.

A failed Go type assertion (`value.(map[string]any)`, `target[k].(map[string]any)`)
is a runtime panic; it is modelled by an explicit abnormal result
(`GetRes.goPanic`, or `none` for the functions returning `Option`).

The numeric payload (Go `float64`) is never computed with by any of these
operations - it is only copied and type-tagged - so it is embedded as an
opaque `Int` payload.
-/

/-- The JSON value universe stored in a `map[string]any` by `json.Unmarshal`:
null, bool, number (float64), string, array, nested object. -/
inductive Value : Type where
  | vnull : Value
  | vbool : Bool → Value
  | vnum : Int → Value
  | vstr : String → Value
  | varr : List Value → Value
  | vdoc : List (String × Value) → Value

/-- Go type `Config = map[string]any`, as an association list. -/
abbrev Config := List (String × Value)

/-- Go map read `c[key]`: the value bound to `key`, if present. -/
def lookupE : Config → String → Option Value
  | [], _ => none
  | (k1, v) :: rest, k => if k = k1 then some v else lookupE rest k

/-- Go map write `c[key] = v`: replace the binding of `key` if present,
otherwise add it. -/
def insertE (k : String) (v : Value) : Config → Config
  | [] => [(k, v)]
  | (k1, v1) :: rest => if k = k1 then (k, v) :: rest else (k1, v1) :: insertE k v rest

/-- Whether a value is a nested document (Go dynamic type `map[string]any`). -/
def isDoc : Value → Bool
  | Value.vdoc _ => true
  | _ => false

/-- Outcome of Go `Get`: `found v` is `(v, true)`, `missing` is `(nil, false)`,
and `goPanic` is the run-time panic raised by the unguarded type assertion
`value.(map[string]interface{})` on a non-map intermediate value. -/
inductive GetRes : Type where
  | goPanic : GetRes
  | missing : GetRes
  | found : Value → GetRes

/-- Go `Get(c, keys...)`: walk the path; a missing key returns `(nil, false)`;
a present intermediate value that is not a map panics (blind type assertion). -/
def Get : Config → List String → GetRes
  | _, [] => GetRes.missing
  | c, k :: rest =>
    match lookupE c k with
    | none => GetRes.missing
    | some v =>
      match rest with
      | [] => GetRes.found v
      | _ :: _ =>
        match v with
        | Value.vdoc d => Get d rest
        | _ => GetRes.goPanic

/-- Go `HasKey(c, key)`. -/
def HasKey (c : Config) (key : String) : Bool :=
  (lookupE c key).isSome

/-- Go `HasKeyNested(c, keys...)`: same walk as `Get`; `none` is the panic of
the blind type assertion on a non-map intermediate value. -/
def HasKeyNested : Config → List String → Option Bool
  | _, [] => some true
  | c, k :: rest =>
    match lookupE c k with
    | none => some false
    | some v =>
      match rest with
      | [] => some true
      | _ :: _ =>
        match v with
        | Value.vdoc d => HasKeyNested d rest
        | _ => none

/-- Go `Set(c, value, keys...)` (named `SetKey` here because `Set` is taken):
walk the path creating empty maps for missing intermediate keys; assign at the
final key.  `none` is the panic of `nestedMap[key].(map[string]any)` when an
existing intermediate value is not a map. -/
def SetKey : Config → Value → List String → Option Config
  | c, _, [] => some c
  | c, v, k :: rest =>
    match rest with
    | [] => some (insertE k v c)
    | _ :: _ =>
      match lookupE c k with
      | none => (SetKey [] v rest).map (fun d => insertE k (Value.vdoc d) c)
      | some (Value.vdoc d) => (SetKey d v rest).map (fun d2 => insertE k (Value.vdoc d2) c)
      | some _ => none

/-- Go `Update(source, target)`: fold the source entries into the target.
A source map value meets: a present target map (recursive merge via
`tmp := target[k].(map[string]any)`), an absent target key (insert), or a
present non-map target value, where the blind type assertion panics (`none`).
Non-map source values are assigned unconditionally. -/
def Update : List (String × Value) → Config → Option Config
  | [], tgt => some tgt
  | (k, v) :: rest, tgt =>
    match v with
    | Value.vdoc d =>
      match lookupE tgt k with
      | none => Update rest (insertE k (Value.vdoc d) tgt)
      | some (Value.vdoc td) =>
        match Update d td with
        | none => none
        | some td2 => Update rest (insertE k (Value.vdoc td2) tgt)
      | some _ => none
    | _ => Update rest (insertE k v tgt)

/-- The rune filter of `UniqueKeyMatchOf`: drop ignored runes, lowercase the
rest (Go `strings.Map` with a function returning -1 to drop). -/
def filterRune (ignore : List Char) (r : Char) : Option Char :=
  if ignore.contains r then none else some r.toLower

/-- `strings.Map(filter, s)` for the rune filter above. -/
def filterStr (ignore : List Char) (s : String) : String :=
  String.mk (s.data.filterMap (filterRune ignore))

/-- `strLeads pre s`: the character list `pre` is a leading run of `s`
(the list form of Go `strings.HasPrefix`). -/
def strLeads : List Char → List Char → Bool
  | [], _ => true
  | _ :: _, [] => false
  | p :: ps, c :: cs => p = c && strLeads ps cs

/-- Go `strings.HasPrefix(s, pre)`. -/
def hasPfx (s pre : String) : Bool :=
  strLeads pre.data s.data

/-- The match loop of `UniqueKeyMatchOf` over the (iteration-ordered) keys:
`acc` is the `match` variable, initially `""`; on a second match the loop
returns `""` early. -/
def ukmLoop (kf : String) (ignore : List Char) : List String → String → String
  | [], acc => acc
  | key :: rest, acc =>
    if hasPfx (filterStr ignore key) kf then
      (if acc ≠ "" then "" else ukmLoop kf ignore rest key)
    else ukmLoop kf ignore rest acc

/-- Go `(c Config) UniqueKeyMatchOf(k, ignore)`: the unique key whose filtered
form has the filtered `k` as a leading substring, else `""`. -/
def UniqueKeyMatchOf (c : Config) (k : String) (ignore : List Char) : String :=
  ukmLoop (filterStr ignore k) ignore (c.map Prod.fst) ""

/-- One key matches the shortcut `k` under the ignore set (the loop test). -/
def keyMatches (ignore : List Char) (k key : String) : Bool :=
  hasPfx (filterStr ignore key) (filterStr ignore k)

/-- The result dictated by the documented tie-break rule for a given list of
matching keys: exactly one match returns that key, zero or several return the
empty string.  (Spec-side definition, compared against `UniqueKeyMatchOf`.) -/
def ukmSpec : List String → String
  | [m] => m
  | _ => ""

/-- ASCII whitespace, the cases of `unicode.IsSpace` these operations meet. -/
def isSpaceChar (c : Char) : Bool :=
  c = ' ' || c = '\t' || c = '\n' || c = '\r'

/-- Go `strings.TrimSpace`: drop leading and trailing whitespace. -/
def trimChars (s : String) : String :=
  String.mk (((s.data.dropWhile isSpaceChar).reverse.dropWhile isSpaceChar).reverse)

/-- The segment loop of Go `strings.Split` for a non-empty separator: cut at
each non-overlapping occurrence of `sep`.  The fuel is the input length, which
bounds the loop. -/
def splitSeg : Nat → List Char → List Char → List Char → List (List Char)
  | _, [], _, acc => [acc.reverse]
  | 0, _, _, acc => [acc.reverse]
  | fuel + 1, c :: cs, sep, acc =>
    if strLeads sep (c :: cs) then
      acc.reverse :: splitSeg fuel (List.drop (sep.length - 1) cs) sep []
    else
      splitSeg fuel cs sep (c :: acc)

/-- Go `strings.Split(s, sep)`: an empty separator explodes the string into
its runes, otherwise cut at each occurrence of `sep`. -/
def splitOnStr (s sep : String) : List String :=
  match sep.data with
  | [] => s.data.map (fun c => String.mk [c])
  | _ :: _ => (splitSeg s.data.length s.data sep.data []).map String.mk

/-- `strings.Split` on the separator, then `strings.TrimSpace` per segment
(the path decoding of `Translation.Apply`). -/
def splitTrim (s sep : String) : List String :=
  (splitOnStr s sep).map trimChars

/-- Go type `Translation = map[string]string`, as an association list. -/
abbrev Translation := List (String × String)

/-- Outcome of `Translation.Apply`: normal return with the final destination
document, the `key ... not found in cFrom` error (carrying the split source
path and the destination document as mutated so far), or a panic propagated
from `Get`/`Set`. -/
inductive ApplyRes : Type where
  | goPanic : ApplyRes
  | keyErr : List String → Config → ApplyRes
  | success : Config → ApplyRes

/-- Go `(t Translation) Apply(cFrom, cTo, sep)`: for each pair, split and trim
both paths, `Get` from the source document, and on success `Set` into the
destination; a failed `Get` aborts with the key-not-found error, keeping the
destination as already mutated by earlier pairs. -/
def Translation.Apply : Translation → Config → Config → String → ApplyRes
  | [], _, cTo, _ => ApplyRes.success cTo
  | (k, v) :: rest, cFrom, cTo, sep =>
    let toKeys := splitTrim v sep
    let fromKeys := splitTrim k sep
    match Get cFrom fromKeys with
    | GetRes.goPanic => ApplyRes.goPanic
    | GetRes.missing => ApplyRes.keyErr fromKeys cTo
    | GetRes.found fv =>
      match SetKey cTo fv toKeys with
      | none => ApplyRes.goPanic
      | some cTo2 => Translation.Apply rest cFrom cTo2 sep

/-- The dynamic type name of a value, as produced by `reflect.TypeOf` in
`CompareTypes` (the exact strings are immaterial; each variant has its own). -/
def typeTag : Value → String
  | Value.vnull => "nil"
  | Value.vbool _ => "bool"
  | Value.vnum _ => "float64"
  | Value.vstr _ => "string"
  | Value.varr _ => "slice"
  | Value.vdoc _ => "config.Config"

/-- `strings.TrimLeft(s, ":")`: drop all leading colons. -/
def trimColons (s : String) : String :=
  String.mk (s.data.dropWhile (fun c => c = ':'))

/-- The dotted path built by `CompareTypes`:
`strings.Join([]string{prefix, key}, ":")` then `strings.TrimLeft(.., ":")`. -/
def dotPath (pfx key : String) : String :=
  trimColons (pfx ++ ":" ++ key)

/-- Go `(c Config) CompareTypes(refCfg, prefix, mismatches, notFound)`:
for each subject entry, a key absent from the reference contributes its dotted
path to `notFound`; a present key with a different type tag contributes a
mismatch line; equal tags on nested maps recurse.  The two accumulated lists
are returned (the Go code appends them to caller-supplied slices in the same
order). -/
def CompareTypes : Config → Config → String → List String × List String
  | [], _, _ => ([], [])
  | (key, v1) :: rest, refCfg, pfx =>
    let p := dotPath pfx key
    let head :=
      match lookupE refCfg key with
      | some v2 =>
        if typeTag v1 = typeTag v2 then
          match v1, v2 with
          | Value.vdoc d1, Value.vdoc d2 => CompareTypes d1 d2 p
          | _, _ => ([], [])
        else ([p ++ ":" ++ typeTag v1 ++ "!=" ++ typeTag v2], [])
      | none => ([], [p])
    let tail := CompareTypes rest refCfg pfx
    (head.1 ++ tail.1, head.2 ++ tail.2)

/-- Well-formedness of a document tree: at every nesting level the keys are
distinct (the invariant of a Go map). -/
def wfDoc : List (String × Value) → Bool
  | [] => true
  | (k, v) :: rest =>
    !((rest.map Prod.fst).contains k) &&
    (match v with
     | Value.vdoc d => wfDoc d
     | _ => true) &&
    wfDoc rest

/-- `absorbs tgt src`: the target already contains everything `Update` would
copy from `src` - every scalar binding of `src` is present verbatim, and every
map binding of `src` sits over a target map that recursively absorbs it. -/
def absorbs : Config → List (String × Value) → Prop
  | _, [] => True
  | tgt, (k, v) :: rest =>
    (match v with
     | Value.vdoc d => ∃ td, lookupE tgt k = some (Value.vdoc td) ∧ absorbs td d
     | _ => lookupE tgt k = some v) ∧ absorbs tgt rest

/-!
Heap model.

The pure model above is extensionally faithful on the data-model invariant
(documents form trees with no shared mutable substructure), but it cannot
express aliasing.  To examine the claim that `Update` inserts missing source
sub-documents by value (deep copy), documents are also modelled with explicit
addresses: a heap binds addresses to mutable string-to-value maps, and a
nested document is a reference `HVal.href a` to such an address - exactly a Go
map value, which is a reference.  `updateHeap` and `setHeap` are the same Go
functions re-read against this store; `resolveAddr` reads the pure tree
denoted by an address.  The `fuel` argument bounds the traversal depth (Go
recursion on a tree terminates; the fuel only makes the Lean functions total
on arbitrary heaps).
-/

/-- Heap-level values: scalars and arrays by value, nested documents by
reference (a Go map value is a pointer to the map structure). -/
inductive HVal : Type where
  | hnull : HVal
  | hbool : Bool → HVal
  | hnum : Int → HVal
  | hstr : String → HVal
  | harr : List HVal → HVal
  | href : Nat → HVal

/-- The entries of one heap-allocated map. -/
abbrev HEntries := List (String × HVal)

/-- A heap: addresses bound to map structures. -/
abbrev Heap := List (Nat × HEntries)

/-- Heap-map read. -/
def lookupH : HEntries → String → Option HVal
  | [], _ => none
  | (k1, v) :: rest, k => if k = k1 then some v else lookupH rest k

/-- Heap-map write (replace or append). -/
def insertH (k : String) (v : HVal) : HEntries → HEntries
  | [] => [(k, v)]
  | (k1, v1) :: rest => if k = k1 then (k, v) :: rest else (k1, v1) :: insertH k v rest

/-- Dereference an address. -/
def heapGet : Heap → Nat → Option HEntries
  | [], _ => none
  | (a1, m) :: rest, a => if a = a1 then some m else heapGet rest a

/-- Overwrite the map structure at an address (append if unallocated). -/
def heapSet : Heap → Nat → HEntries → Heap
  | [], a, m => [(a, m)]
  | (a1, m1) :: rest, a, m => if a = a1 then (a, m) :: rest else (a1, m1) :: heapSet rest a m

/-- A fresh address for `setHeap`'s intermediate-map allocation. -/
def freshAddr (h : Heap) : Nat :=
  (h.map Prod.fst).foldr (fun a b => max a b) 0 + 1

mutual

/-- Go `Update(source, target)` read against the heap: `srcA` and `tgtA` are
the addresses of the two maps. -/
def updateHeap : Nat → Heap → Nat → Nat → Option Heap
  | 0, _, _, _ => none
  | fuel + 1, h, srcA, tgtA =>
    match heapGet h srcA with
    | none => none
    | some smap => updEntriesHeap fuel h smap tgtA

/-- The body of the heap-level `Update` loop over the source entries.  A
source map reference over an absent target key is stored as the reference
itself (`target[k] = v` copies the map reference, not the map). -/
def updEntriesHeap : Nat → Heap → HEntries → Nat → Option Heap
  | 0, _, _, _ => none
  | _ + 1, h, [], _ => some h
  | fuel + 1, h, (k, v) :: rest, tgtA =>
    match v with
    | HVal.href a =>
      match heapGet h tgtA with
      | none => none
      | some tmap =>
        match lookupH tmap k with
        | some (HVal.href b) =>
          match updateHeap fuel h a b with
          | none => none
          | some h2 => updEntriesHeap fuel h2 rest tgtA
        | some _ => none
        | none => updEntriesHeap fuel (heapSet h tgtA (insertH k (HVal.href a) tmap)) rest tgtA
    | _ =>
      match heapGet h tgtA with
      | none => none
      | some tmap => updEntriesHeap fuel (heapSet h tgtA (insertH k v tmap)) rest tgtA

end

/-- Go `Set(c, value, keys...)` read against the heap: descends through map
references, allocating fresh empty maps for missing intermediate keys, and
assigns at the final key.  `none` is the panic on a non-map intermediate
value (or fuel exhaustion). -/
def setHeap : Nat → Heap → Nat → HVal → List String → Option Heap
  | 0, _, _, _, _ => none
  | _ + 1, h, _, _, [] => some h
  | fuel + 1, h, addr, v, k :: rest =>
    match heapGet h addr with
    | none => none
    | some m =>
      match rest with
      | [] => some (heapSet h addr (insertH k v m))
      | _ :: _ =>
        match lookupH m k with
        | some (HVal.href b) => setHeap fuel h b v rest
        | some _ => none
        | none =>
          let b := freshAddr h
          let h2 := heapSet (heapSet h addr (insertH k (HVal.href b) m)) b []
          setHeap fuel h2 b v rest

mutual

/-- The pure document tree denoted by a heap address. -/
def resolveAddr : Nat → Heap → Nat → Option Value
  | 0, _, _ => none
  | fuel + 1, h, a =>
    match heapGet h a with
    | none => none
    | some m => (resolveEntries fuel h m).map Value.vdoc

/-- Resolve each entry of a heap map. -/
def resolveEntries : Nat → Heap → HEntries → Option (List (String × Value))
  | 0, _, _ => none
  | _ + 1, _, [] => some []
  | fuel + 1, h, (k, v) :: rest =>
    match resolveVal fuel h v, resolveEntries fuel h rest with
    | some pv, some prest => some ((k, pv) :: prest)
    | _, _ => none

/-- Resolve one heap value. -/
def resolveVal : Nat → Heap → HVal → Option Value
  | 0, _, _ => none
  | fuel + 1, h, v =>
    match v with
    | HVal.hnull => some Value.vnull
    | HVal.hbool b => some (Value.vbool b)
    | HVal.hnum n => some (Value.vnum n)
    | HVal.hstr s => some (Value.vstr s)
    | HVal.harr l => (resolveList fuel h l).map Value.varr
    | HVal.href a => resolveAddr fuel h a

/-- Resolve the elements of a heap array. -/
def resolveList : Nat → Heap → List HVal → Option (List Value)
  | 0, _, _ => none
  | _ + 1, _, [] => some []
  | fuel + 1, h, v :: rest =>
    match resolveVal fuel h v, resolveList fuel h rest with
    | some pv, some prest => some (pv :: prest)
    | _, _ => none

end

/-- The concrete heap of the aliasing counterexample: an empty target map at
address 0, a source map at address 1 whose key `k` references the sub-document
at address 2. -/
def aliasHeap0 : Heap :=
  [(0, []), (1, [("k", HVal.href 2)]), (2, [("a", HVal.hnum 1)])]

/-- `aliasHeap0` after `Update(source, target)`: the target now holds the same
reference to address 2. -/
def aliasHeap1 : Heap :=
  [(0, [("k", HVal.href 2)]), (1, [("k", HVal.href 2)]), (2, [("a", HVal.hnum 1)])]

/-- `aliasHeap1` after `Set(target, 5, "k", "b")`: the shared sub-document at
address 2 has been mutated through the target. -/
def aliasHeap2 : Heap :=
  [(0, [("k", HVal.href 2)]), (1, [("k", HVal.href 2)]), (2, [("a", HVal.hnum 1), ("b", HVal.hnum 5)])]

/-! Basic association-list lemmas. -/

theorem lookup_insertE_self (k : String) (v : Value) (c : Config) :
    lookupE (insertE k v c) k = some v := by
  induction c with
  | nil => simp [insertE, lookupE]
  | cons hd tl ih =>
    obtain ⟨k1, v1⟩ := hd
    by_cases h : k = k1 <;> simp [insertE, lookupE, h, ih]

theorem lookup_insertE_ne (k key : String) (v : Value) (c : Config) (h : key ≠ k) :
    lookupE (insertE k v c) key = lookupE c key := by
  induction c with
  | nil => simp [insertE, lookupE, h]
  | cons hd tl ih =>
    obtain ⟨k1, v1⟩ := hd
    by_cases h1 : k = k1
    · subst h1
      simp [insertE, lookupE, h]
    · by_cases h2 : key = k1 <;> simp [insertE, lookupE, h1, h2, ih]

theorem insertE_self (k : String) (v : Value) (c : Config) (h : lookupE c k = some v) :
    insertE k v c = c := by
  induction c with
  | nil => simp [lookupE] at h
  | cons hd tl ih =>
    obtain ⟨k1, v1⟩ := hd
    by_cases h1 : k = k1
    · subst h1
      simp [lookupE] at h
      simp [insertE, h]
    · simp [lookupE, h1] at h
      simp [insertE, h1, ih h]

/-! C5: `Get` after a successful `Set` finds the written value. -/

theorem get_cons_doc (c : Config) (k : String) (d : Config) (r : String) (rs : List String)
    (h : lookupE c k = some (Value.vdoc d)) :
    Get c (k :: r :: rs) = Get d (r :: rs) := by
  simp [Get, h]

theorem setKey_cons_cons (c : Config) (v : Value) (k r : String) (rs : List String) :
    SetKey c v (k :: r :: rs)
      = match lookupE c k with
        | none => (SetKey [] v (r :: rs)).map (fun d => insertE k (Value.vdoc d) c)
        | some (Value.vdoc d) => (SetKey d v (r :: rs)).map (fun d2 => insertE k (Value.vdoc d2) c)
        | some _ => none := rfl

/-- C5: for every document `c`, non-empty path `p` and value `v` for which
`Set(c, v, p)` succeeds with result `c2`, `Get(c2, p)` returns `(v, true)`. -/
theorem get_set_inverse :
    ∀ (p : List String) (c c2 : Config) (v : Value),
      p ≠ [] → SetKey c v p = some c2 → Get c2 p = GetRes.found v := by
  intro p
  induction p with
  | nil => intro c c2 v h _; exact absurd rfl h
  | cons k rest ih =>
    intro c c2 v _ hset
    cases rest with
    | nil =>
      simp [SetKey] at hset
      subst hset
      simp [Get, lookup_insertE_self]
    | cons r rs =>
      rw [setKey_cons_cons] at hset
      split at hset
      · rw [Option.map_eq_some'] at hset
        obtain ⟨d, hs, hc2⟩ := hset
        subst hc2
        rw [get_cons_doc _ _ d _ _ (lookup_insertE_self k (Value.vdoc d) c)]
        exact ih [] d v (by simp) hs
      · rw [Option.map_eq_some'] at hset
        obtain ⟨d, hs, hc2⟩ := hset
        subst hc2
        rw [get_cons_doc _ _ d _ _ (lookup_insertE_self k (Value.vdoc d) c)]
        exact ih _ d v (by simp) hs
      · simp at hset

/-- C5 witness: `Set` into the empty document at path `["a", "b"]` succeeds
and `Get` reads the value back. -/
theorem get_set_inverse_witness :
    (["a", "b"] ≠ ([] : List String))
    ∧ SetKey [] (Value.vnum 7) ["a", "b"] = some [("a", Value.vdoc [("b", Value.vnum 7)])]
    ∧ Get [("a", Value.vdoc [("b", Value.vnum 7)])] ["a", "b"] = GetRes.found (Value.vnum 7) :=
  ⟨by simp, rfl, get_set_inverse ["a", "b"] [] _ (Value.vnum 7) (by simp) rfl⟩

/-! C1: on a path whose intermediate value is present but not a map, the code
does not produce a `TypeMismatch` error value - the blind type assertion
`value.(map[string]interface{})` aborts with a runtime panic. -/

/-- C1: at document `{"a": "x"}` and path `["a", "b"]`, `Get`, `HasKeyNested`
and `Set` all hit the unguarded type assertion and panic; none of them returns
a typed `TypeMismatch` error (their Go signatures have no error result at
all), none reports `found = false`, and `Set` does not overwrite. -/
theorem path_type_assertion_panics :
    Get [("a", Value.vstr "x")] ["a", "b"] = GetRes.goPanic
    ∧ HasKeyNested [("a", Value.vstr "x")] ["a", "b"] = none
    ∧ SetKey [("a", Value.vstr "x")] Value.vnull ["a", "b"] = none :=
  ⟨rfl, rfl, rfl⟩

/-! C2: `Update` is not total: `tmp := target[k].(map[string]any)` panics when
the source binds a map where the target binds a non-map. -/

/-- C2: `Update({"k": {}}, {"k": true})` aborts with a failed type assertion
instead of terminating normally, so `Update` is not total. -/
theorem update_not_total :
    Update [("k", Value.vdoc [])] [("k", Value.vbool true)] = none := by
  simp [Update, lookupE]

/-- C3: `Update({"m": {"a": null}}, {"m": "s"})` panics on the blind type
assertion instead of overwriting `target["m"]` wholesale with the source
sub-document. -/
theorem update_doc_over_scalar_panics :
    Update [("m", Value.vdoc [("a", Value.vnull)])] [("m", Value.vstr "s")] = none := by
  simp [Update, lookupE]

theorem update_frame :
    ∀ (src : List (String × Value)) (tgt tgt2 : Config),
      Update src tgt = some tgt2 →
      ∀ key, key ∉ src.map Prod.fst → lookupE tgt2 key = lookupE tgt key := by
  intro src tgt
  induction src, tgt using Update.induct with
  | case1 tgt =>
    intro tgt2 h key _
    simp only [Update, Option.some.injEq] at h
    subst h
    rfl
  | case2 k rest tgt d hlk ih =>
    intro tgt2 h key hk
    simp only [Update, hlk] at h
    simp only [List.map_cons, List.mem_cons, not_or] at hk
    rw [ih tgt2 h key hk.2, lookup_insertE_ne _ _ _ _ hk.1]
  | case3 k rest tgt a d hlk hupd ih =>
    intro tgt2 h key hk
    simp [Update, hlk, hupd] at h
  | case4 k rest tgt a d hlk td2 hupd ihInner ihRest =>
    intro tgt2 h key hk
    simp only [Update, hlk, hupd] at h
    simp only [List.map_cons, List.mem_cons, not_or] at hk
    rw [ihRest tgt2 h key hk.2, lookup_insertE_ne _ _ _ _ hk.1]
  | case5 k rest tgt a val hnv hlk =>
    intro tgt2 h key hk
    cases val <;> first
      | exact (hnv _ rfl).elim
      | simp [Update, hlk] at h
  | case6 k v rest tgt hnv ih =>
    intro tgt2 h key hk
    simp only [List.map_cons, List.mem_cons, not_or] at hk
    cases v <;> first
      | exact (hnv _ rfl).elim
      | (simp only [Update] at h
         rw [ih tgt2 h key hk.2, lookup_insertE_ne _ _ _ _ hk.1])

theorem wfDoc_parts (k : String) (v : Value) (rest : List (String × Value))
    (h : wfDoc ((k, v) :: rest) = true) :
    k ∉ rest.map Prod.fst ∧ wfDoc rest = true := by
  rw [wfDoc.eq_def] at h
  simp at h
  refine ⟨?_, h.2⟩
  intro hmem
  rw [List.mem_map] at hmem
  obtain ⟨⟨k1, v1⟩, hin, hk1⟩ := hmem
  cases hk1
  exact h.1.1 v1 hin

theorem wfDoc_cons_doc (k : String) (d : List (String × Value)) (rest : List (String × Value))
    (h : wfDoc ((k, Value.vdoc d) :: rest) = true) : wfDoc d = true := by
  rw [wfDoc.eq_def] at h
  simp at h
  exact h.1.2

theorem absorbs_nil (tgt : Config) : absorbs tgt [] := by
  rw [absorbs.eq_def]
  trivial

theorem absorbs_cons_doc (tgt : Config) (k : String) (d rest : List (String × Value)) :
    absorbs tgt ((k, Value.vdoc d) :: rest)
      ↔ (∃ td, lookupE tgt k = some (Value.vdoc td) ∧ absorbs td d) ∧ absorbs tgt rest := by
  rw [absorbs.eq_def]

theorem absorbs_cons_nondoc (v : Value) (h : ∀ d2, v = Value.vdoc d2 → False)
    (tgt : Config) (k : String) (rest : List (String × Value)) :
    absorbs tgt ((k, v) :: rest) ↔ lookupE tgt k = some v ∧ absorbs tgt rest := by
  cases v
  case vdoc d => exact (h d rfl).elim
  all_goals rw [absorbs.eq_def]

theorem absorbs_congr :
    ∀ (src : List (String × Value)) (tgt tgt2 : Config),
      (∀ key, key ∈ src.map Prod.fst → lookupE tgt2 key = lookupE tgt key) →
      absorbs tgt src → absorbs tgt2 src := by
  intro src
  induction src with
  | nil => intro tgt tgt2 _ _; exact absorbs_nil tgt2
  | cons hd tl ih =>
    obtain ⟨k, v⟩ := hd
    intro tgt tgt2 hagree hab
    have hk : lookupE tgt2 k = lookupE tgt k := hagree k (by simp)
    have htl : ∀ key, key ∈ tl.map Prod.fst → lookupE tgt2 key = lookupE tgt key :=
      fun key hkey => hagree key (by simp [hkey])
    cases v with
    | vdoc d =>
      rw [absorbs_cons_doc] at hab ⊢
      obtain ⟨⟨td, htd, habd⟩, habrest⟩ := hab
      exact ⟨⟨td, by rw [hk, htd], habd⟩, ih tgt tgt2 htl habrest⟩
    | vnull =>
      rw [absorbs_cons_nondoc Value.vnull (fun _ hh => Value.noConfusion hh)] at hab ⊢
      exact ⟨by rw [hk, hab.1], ih tgt tgt2 htl hab.2⟩
    | vbool b =>
      rw [absorbs_cons_nondoc (Value.vbool b) (fun _ hh => Value.noConfusion hh)] at hab ⊢
      exact ⟨by rw [hk, hab.1], ih tgt tgt2 htl hab.2⟩
    | vnum n =>
      rw [absorbs_cons_nondoc (Value.vnum n) (fun _ hh => Value.noConfusion hh)] at hab ⊢
      exact ⟨by rw [hk, hab.1], ih tgt tgt2 htl hab.2⟩
    | vstr s =>
      rw [absorbs_cons_nondoc (Value.vstr s) (fun _ hh => Value.noConfusion hh)] at hab ⊢
      exact ⟨by rw [hk, hab.1], ih tgt tgt2 htl hab.2⟩
    | varr l =>
      rw [absorbs_cons_nondoc (Value.varr l) (fun _ hh => Value.noConfusion hh)] at hab ⊢
      exact ⟨by rw [hk, hab.1], ih tgt tgt2 htl hab.2⟩

theorem absorbs_of_wfDoc :
    ∀ (d : List (String × Value)), wfDoc d = true → absorbs d d := by
  intro d
  induction d using wfDoc.induct with
  | case1 => intro _; exact absorbs_nil []
  | case2 k v rest ih2 ih1 =>
    intro hwf
    obtain ⟨hkmem, hwfrest⟩ := wfDoc_parts _ _ _ hwf
    have hagree : ∀ key, key ∈ rest.map Prod.fst →
        lookupE ((k, v) :: rest) key = lookupE rest key := by
      intro key hkey
      have hne : key ≠ k := fun he => hkmem (he ▸ hkey)
      simp [lookupE, hne]
    have habrest : absorbs ((k, v) :: rest) rest :=
      absorbs_congr rest rest ((k, v) :: rest) hagree (ih1 hwfrest)
    cases v with
    | vdoc d2 =>
      have hwfd := wfDoc_cons_doc _ _ _ hwf
      rw [absorbs_cons_doc]
      exact ⟨⟨d2, by simp [lookupE], ih2 hwfd⟩, habrest⟩
    | vnull =>
      rw [absorbs_cons_nondoc Value.vnull (fun _ hh => Value.noConfusion hh)]
      exact ⟨by simp [lookupE], habrest⟩
    | vbool b =>
      rw [absorbs_cons_nondoc (Value.vbool b) (fun _ hh => Value.noConfusion hh)]
      exact ⟨by simp [lookupE], habrest⟩
    | vnum n =>
      rw [absorbs_cons_nondoc (Value.vnum n) (fun _ hh => Value.noConfusion hh)]
      exact ⟨by simp [lookupE], habrest⟩
    | vstr st =>
      rw [absorbs_cons_nondoc (Value.vstr st) (fun _ hh => Value.noConfusion hh)]
      exact ⟨by simp [lookupE], habrest⟩
    | varr l =>
      rw [absorbs_cons_nondoc (Value.varr l) (fun _ hh => Value.noConfusion hh)]
      exact ⟨by simp [lookupE], habrest⟩

theorem update_absorbs :
    ∀ (src : List (String × Value)) (tgt tgt2 : Config),
      wfDoc src = true → Update src tgt = some tgt2 → absorbs tgt2 src := by
  intro src tgt
  induction src, tgt using Update.induct with
  | case1 tgt => intro tgt2 _ _; exact absorbs_nil tgt2
  | case2 k rest tgt d hlk ih =>
    intro tgt2 hwf h
    simp only [Update, hlk] at h
    obtain ⟨hkmem, hwfrest⟩ := wfDoc_parts _ _ _ hwf
    have hwfd := wfDoc_cons_doc _ _ _ hwf
    rw [absorbs_cons_doc]
    refine ⟨⟨d, ?_, absorbs_of_wfDoc d hwfd⟩, ih tgt2 hwfrest h⟩
    rw [update_frame rest _ tgt2 h k hkmem, lookup_insertE_self]
  | case3 k rest tgt a d hlk hupd ih =>
    intro tgt2 hwf h
    simp [Update, hlk, hupd] at h
  | case4 k rest tgt a d hlk td2 hupd ihInner ihRest =>
    intro tgt2 hwf h
    simp only [Update, hlk, hupd] at h
    obtain ⟨hkmem, hwfrest⟩ := wfDoc_parts _ _ _ hwf
    have hwfa := wfDoc_cons_doc _ _ _ hwf
    rw [absorbs_cons_doc]
    refine ⟨⟨td2, ?_, ihInner td2 hwfa hupd⟩, ihRest tgt2 hwfrest h⟩
    rw [update_frame rest _ tgt2 h k hkmem, lookup_insertE_self]
  | case5 k rest tgt a val hnv hlk =>
    intro tgt2 hwf h
    cases val <;> first
      | exact (hnv _ rfl).elim
      | simp [Update, hlk] at h
  | case6 k v rest tgt hnv ih =>
    intro tgt2 hwf h
    obtain ⟨hkmem, hwfrest⟩ := wfDoc_parts _ _ _ hwf
    cases v
    case vdoc d => exact (hnv d rfl).elim
    all_goals
      simp only [Update] at h
      rw [absorbs_cons_nondoc _ hnv]
      exact ⟨by rw [update_frame rest _ tgt2 h k hkmem, lookup_insertE_self], ih tgt2 hwfrest h⟩

theorem update_of_absorbs :
    ∀ (src : List (String × Value)) (tgt : Config),
      absorbs tgt src → Update src tgt = some tgt := by
  intro src tgt
  induction src, tgt using Update.induct with
  | case1 tgt => intro _; simp [Update]
  | case2 k rest tgt d hlk ih =>
    intro hab
    rw [absorbs_cons_doc] at hab
    obtain ⟨⟨td, htd, _⟩, _⟩ := hab
    rw [hlk] at htd
    exact Option.noConfusion htd
  | case3 k rest tgt a d hlk hupd ihInner =>
    intro hab
    rw [absorbs_cons_doc] at hab
    obtain ⟨⟨td, htd, habInner⟩, habRest⟩ := hab
    rw [hlk] at htd
    injection htd with h1
    injection h1 with h2
    subst h2
    have hdd := ihInner habInner
    rw [hupd] at hdd
    exact Option.noConfusion hdd
  | case4 k rest tgt a d hlk td2 hupd ihInner ihRest =>
    intro hab
    rw [absorbs_cons_doc] at hab
    obtain ⟨⟨td, htd, habInner⟩, habRest⟩ := hab
    rw [hlk] at htd
    injection htd with h1
    injection h1 with h2
    have habInner2 : absorbs d a := by rw [h2]; exact habInner
    have hdd := ihInner habInner2
    rw [hupd] at hdd
    injection hdd with h3
    have hins : insertE k (Value.vdoc td2) tgt = tgt := by
      rw [h3]
      exact insertE_self _ _ _ hlk
    simp only [Update, hlk, hupd]
    rw [hins]
    rw [hins] at ihRest
    exact ihRest habRest
  | case5 k rest tgt a val hnv hlk =>
    intro hab
    rw [absorbs_cons_doc] at hab
    obtain ⟨⟨td, htd, _⟩, _⟩ := hab
    rw [hlk] at htd
    injection htd with h1
    exact (hnv td h1).elim
  | case6 k v rest tgt hnv ih =>
    intro hab
    cases v
    case vdoc d => exact (hnv d rfl).elim
    all_goals
      rw [absorbs_cons_nondoc _ hnv] at hab
      obtain ⟨hv, habRest⟩ := hab
      have hins := insertE_self _ _ _ hv
      simp only [Update]
      rw [hins]
      rw [hins] at ih
      exact ih habRest

/-- C6: `Update` is idempotent in its source: if `Update(s, t)` terminates
normally with result `t2` (the Go call mutates `t` into `t2`), then a second
`Update(s, t2)` with the same source terminates and leaves `t2` unchanged.
The hypothesis `wfDoc s` is the Go map invariant (distinct keys at every
nesting level of the source document). -/
theorem update_idempotent (s t t2 : Config) (hwf : wfDoc s = true)
    (h : Update s t = some t2) : Update s t2 = some t2 :=
  update_of_absorbs s t2 (update_absorbs s t t2 hwf h)

/-- C6 witness: a concrete merge with a nested document, run twice. -/
theorem update_idempotent_witness :
    wfDoc [("a", Value.vdoc [("x", Value.vnum 1)]), ("b", Value.vnum 2)] = true
    ∧ Update [("a", Value.vdoc [("x", Value.vnum 1)]), ("b", Value.vnum 2)]
        [("a", Value.vdoc [("y", Value.vnum 3)])]
        = some [("a", Value.vdoc [("y", Value.vnum 3), ("x", Value.vnum 1)]), ("b", Value.vnum 2)]
    ∧ Update [("a", Value.vdoc [("x", Value.vnum 1)]), ("b", Value.vnum 2)]
        [("a", Value.vdoc [("y", Value.vnum 3), ("x", Value.vnum 1)]), ("b", Value.vnum 2)]
        = some [("a", Value.vdoc [("y", Value.vnum 3), ("x", Value.vnum 1)]), ("b", Value.vnum 2)] := by
  have h1 : Update [("a", Value.vdoc [("x", Value.vnum 1)]), ("b", Value.vnum 2)]
      [("a", Value.vdoc [("y", Value.vnum 3)])]
      = some [("a", Value.vdoc [("y", Value.vnum 3), ("x", Value.vnum 1)]), ("b", Value.vnum 2)] := by
    simp [Update, lookupE, insertE]
  exact ⟨by simp [wfDoc], h1, update_idempotent _ _ _ (by simp [wfDoc]) h1⟩

/-! C4: aliasing behaviour of `Update` in the heap model. -/

theorem lookupH_insertH_self (k : String) (v : HVal) (m : HEntries) :
    lookupH (insertH k v m) k = some v := by
  induction m with
  | nil => simp [insertH, lookupH]
  | cons hd tl ih =>
    obtain ⟨k1, v1⟩ := hd
    by_cases hk : k = k1 <;> simp [insertH, lookupH, hk, ih]

theorem heapGet_heapSet_ne (h : Heap) (a b : Nat) (m : HEntries) (hne : a ≠ b) :
    heapGet (heapSet h b m) a = heapGet h a := by
  induction h with
  | nil => simp [heapSet, heapGet, hne]
  | cons hd tl ih =>
    obtain ⟨a1, m1⟩ := hd
    by_cases hb : b = a1
    · subst hb
      simp [heapSet, heapGet, hne]
    · by_cases ha : a = a1 <;> simp [heapSet, heapGet, hb, ha, ih]

/-- C4 (amended): when the source map holds `k` as a reference to the
sub-document at address `a` and the target map lacks `k`, `Update` stores that
same reference `a` in the target - insertion is by reference, not by deep
copy, so target and source now share the sub-document at `a` (the
counterexample shows a later `Set` through the target mutating the source's
tree).  The source map itself is not written by the call. -/
theorem update_inserts_doc_by_reference
    (fuel : Nat) (h : Heap) (srcA tgtA : Nat) (k : String) (a : Nat) (tmap : HEntries)
    (hsrc : heapGet h srcA = some [(k, HVal.href a)])
    (htgt : heapGet h tgtA = some tmap)
    (hnk : lookupH tmap k = none)
    (hne : srcA ≠ tgtA) :
    updateHeap (fuel + 3) h srcA tgtA = some (heapSet h tgtA (insertH k (HVal.href a) tmap))
    ∧ lookupH (insertH k (HVal.href a) tmap) k = some (HVal.href a)
    ∧ heapGet (heapSet h tgtA (insertH k (HVal.href a) tmap)) srcA = some [(k, HVal.href a)] := by
  refine ⟨?_, lookupH_insertH_self _ _ _, ?_⟩
  · show updateHeap ((fuel + 2) + 1) h srcA tgtA = _
    simp only [updateHeap, hsrc]
    show updEntriesHeap ((fuel + 1) + 1) h [(k, HVal.href a)] tgtA = _
    simp only [updEntriesHeap, htgt, hnk]
  · rw [heapGet_heapSet_ne _ _ _ _ hne, hsrc]

/-- C4 witness for the amended theorem: the concrete aliasing heap. -/
theorem update_inserts_doc_by_reference_witness :
    heapGet aliasHeap0 1 = some [("k", HVal.href 2)]
    ∧ heapGet aliasHeap0 0 = some []
    ∧ lookupH [] "k" = none
    ∧ (1 : Nat) ≠ 0
    ∧ updateHeap 3 aliasHeap0 1 0
        = some (heapSet aliasHeap0 0 (insertH "k" (HVal.href 2) []))
    ∧ lookupH (insertH "k" (HVal.href 2) []) "k" = some (HVal.href 2) :=
  ⟨rfl, rfl, rfl, by decide,
    (update_inserts_doc_by_reference 0 aliasHeap0 1 0 "k" 2 [] rfl rfl rfl (by decide)).1,
    (update_inserts_doc_by_reference 0 aliasHeap0 1 0 "k" 2 [] rfl rfl rfl (by decide)).2.1⟩

/-- C4 counterexample: `Update` copies the source's sub-document reference
into the target (`aliasHeap1`), after which `Set(target, 5, "k", "b")`
mutates the shared sub-document; reading the source document back then
yields a different tree than before, so an in-place mutation of the target
did change the source - the insertion was not a deep copy. -/
theorem update_aliasing_counterexample :
    updateHeap 9 aliasHeap0 1 0 = some aliasHeap1
    ∧ setHeap 9 aliasHeap1 0 (HVal.hnum 5) ["k", "b"] = some aliasHeap2
    ∧ resolveAddr 9 aliasHeap0 1 = some (Value.vdoc [("k", Value.vdoc [("a", Value.vnum 1)])])
    ∧ resolveAddr 9 aliasHeap2 1
        = some (Value.vdoc [("k", Value.vdoc [("a", Value.vnum 1), ("b", Value.vnum 5)])])
    ∧ resolveAddr 9 aliasHeap2 1 ≠ resolveAddr 9 aliasHeap0 1 := by
  have e3 : resolveAddr 9 aliasHeap0 1
      = some (Value.vdoc [("k", Value.vdoc [("a", Value.vnum 1)])]) := by
    simp [resolveAddr, resolveEntries, resolveVal, aliasHeap0, heapGet]
  have e4 : resolveAddr 9 aliasHeap2 1
      = some (Value.vdoc [("k", Value.vdoc [("a", Value.vnum 1), ("b", Value.vnum 5)])]) := by
    simp [resolveAddr, resolveEntries, resolveVal, aliasHeap2, heapGet]
  refine ⟨?_, ?_, e3, e4, ?_⟩
  · simp [updateHeap, updEntriesHeap, aliasHeap0, aliasHeap1, heapGet, heapSet, lookupH, insertH]
  · simp [setHeap, aliasHeap1, aliasHeap2, heapGet, heapSet, lookupH, insertH]
  · rw [e3, e4]
    simp

/-! C7 and C10: the match loop of `UniqueKeyMatchOf`. -/

theorem ukmLoop_no_match (kf : String) (ig : List Char) :
    ∀ (keys : List String) (acc : String),
      (∀ key ∈ keys, hasPfx (filterStr ig key) kf = false) →
      ukmLoop kf ig keys acc = acc := by
  intro keys
  induction keys with
  | nil => intro acc _; rfl
  | cons key rest ih =>
    intro acc hno
    have h1 := hno key (by simp)
    simp only [ukmLoop, h1]
    simp only [Bool.false_eq_true, if_false]
    exact ih acc (fun key2 hk2 => hno key2 (by simp [hk2]))

theorem ukmLoop_second_match (kf : String) (ig : List Char) :
    ∀ (keys : List String) (acc : String),
      acc ≠ "" →
      (∃ key ∈ keys, hasPfx (filterStr ig key) kf = true) →
      ukmLoop kf ig keys acc = "" := by
  intro keys
  induction keys with
  | nil => intro acc _ hex; simp at hex
  | cons key rest ih =>
    intro acc hacc hex
    by_cases h1 : hasPfx (filterStr ig key) kf = true
    · simp [ukmLoop, h1, hacc]
    · obtain ⟨key2, hk2, hp2⟩ := hex
      rcases List.mem_cons.1 hk2 with rfl | hk2r
      · exact absurd hp2 h1
      · simp only [ukmLoop, h1]
        simp only [Bool.false_eq_true, if_false]
        exact ih acc hacc ⟨key2, hk2r, hp2⟩

theorem ukmLoop_characterization (kf : String) (ig : List Char) :
    ∀ (keys : List String), "" ∉ keys →
      ukmLoop kf ig keys ""
        = ukmSpec (keys.filter (fun key => hasPfx (filterStr ig key) kf)) := by
  intro keys
  induction keys with
  | nil => intro _; rfl
  | cons key rest ih =>
    intro hne
    simp only [List.mem_cons, not_or] at hne
    have hkey_ne : key ≠ "" := fun h => hne.1 h.symm
    by_cases h1 : hasPfx (filterStr ig key) kf = true
    · simp only [ukmLoop, h1, if_true, ne_eq, not_true_eq_false, if_false]
      cases hfr : rest.filter (fun key2 => hasPfx (filterStr ig key2) kf) with
      | nil =>
        have hno : ∀ key2 ∈ rest, hasPfx (filterStr ig key2) kf = false := by
          intro key2 hk2
          by_contra hcon
          have hmem : key2 ∈ rest.filter (fun key3 => hasPfx (filterStr ig key3) kf) :=
            List.mem_filter.2 ⟨hk2, by simpa using hcon⟩
          rw [hfr] at hmem
          simp at hmem
        rw [ukmLoop_no_match kf ig rest key hno]
        simp [List.filter_cons, h1, hfr, ukmSpec]
      | cons m ms =>
        have hm : m ∈ rest.filter (fun key3 => hasPfx (filterStr ig key3) kf) := by
          rw [hfr]; simp
        have hex : ∃ key2 ∈ rest, hasPfx (filterStr ig key2) kf = true :=
          ⟨m, (List.mem_filter.1 hm).1, by simpa using (List.mem_filter.1 hm).2⟩
        rw [ukmLoop_second_match kf ig rest key hkey_ne hex]
        simp [List.filter_cons, h1, hfr, ukmSpec]
    · simp only [ukmLoop, h1]
      simp only [Bool.false_eq_true, if_false]
      rw [ih (fun h => hne.2 h)]
      simp [List.filter_cons, h1]

theorem ukmSpec_perm (l1 l2 : List String) (h : List.Perm l1 l2) :
    ukmSpec l1 = ukmSpec l2 := by
  cases l1 with
  | nil =>
    have : l2 = [] := h.symm.eq_nil
    subst this
    rfl
  | cons a l1t =>
    cases l1t with
    | nil =>
      have : [a] = l2 := List.singleton_perm.1 h
      rw [← this]
    | cons b l1tt =>
      have hlen := h.length_eq
      cases l2 with
      | nil => simp at hlen
      | cons x l2t =>
        cases l2t with
        | nil => simp at hlen
        | cons y l2tt => simp [ukmSpec]

/-- C7 (amended): provided the empty string is not itself one of the
document's keys, `UniqueKeyMatchOf` realises the documented tie-break rule:
it returns the unique original key whose filtered form has the filtered `k`
as a leading substring when exactly one key matches, and the empty string
when no key or more than one key matches.  (The proviso is forced by the
counterexample: a matching key equal to `""` cannot be held by the loop's
accumulator, whose not-found sentinel is also `""`.) -/
theorem unique_key_match_of_spec (c : Config) (k : String) (ig : List Char)
    (hne : "" ∉ c.map Prod.fst) :
    (∀ m, (c.map Prod.fst).filter (keyMatches ig k) = [m] → UniqueKeyMatchOf c k ig = m)
    ∧ ((c.map Prod.fst).filter (keyMatches ig k) = [] → UniqueKeyMatchOf c k ig = "")
    ∧ (2 ≤ ((c.map Prod.fst).filter (keyMatches ig k)).length →
        UniqueKeyMatchOf c k ig = "") := by
  have hc : UniqueKeyMatchOf c k ig = ukmSpec ((c.map Prod.fst).filter (keyMatches ig k)) :=
    ukmLoop_characterization (filterStr ig k) ig (c.map Prod.fst) hne
  refine ⟨?_, ?_, ?_⟩
  · intro m hm
    rw [hc, hm]
    rfl
  · intro hm
    rw [hc, hm]
    rfl
  · intro hlen
    rw [hc]
    cases hfm : (c.map Prod.fst).filter (keyMatches ig k) with
    | nil => rw [hfm] at hlen; simp at hlen
    | cons m ms =>
      cases ms with
      | nil => rw [hfm] at hlen; simp at hlen
      | cons m2 ms2 => rfl

/-- C7 witness: over `{"key1": _, "other": _}` the shortcut `"k"` matches
exactly `key1`, and the function returns it. -/
theorem unique_key_match_of_spec_witness :
    ("" ∉ ([("key1", Value.vnull), ("other", Value.vnull)] : Config).map Prod.fst)
    ∧ (([("key1", Value.vnull), ("other", Value.vnull)] : Config).map Prod.fst).filter
        (keyMatches [] "k") = ["key1"]
    ∧ UniqueKeyMatchOf [("key1", Value.vnull), ("other", Value.vnull)] "k" [] = "key1" :=
  ⟨by decide, rfl,
    (unique_key_match_of_spec [("key1", Value.vnull), ("other", Value.vnull)] "k" []
      (by decide)).1 "key1" rfl⟩

/-- C7 counterexample: with document keys `""` and `"x"` and shortcut `""`,
both keys match the shortcut, yet the function returns `"x"` instead of the
ambiguity sentinel `""`: a matching key equal to the empty string does not
register in the accumulator, so the two-or-more-matches rule is violated. -/
theorem unique_key_match_ambiguity_counterexample :
    keyMatches [] "" "" = true
    ∧ keyMatches [] "" "x" = true
    ∧ (([("", Value.vnull), ("x", Value.vnull)] : Config).map Prod.fst).filter
        (keyMatches [] "") = ["", "x"]
    ∧ UniqueKeyMatchOf [("", Value.vnull), ("x", Value.vnull)] "" [] = "x"
    ∧ ("x" : String) ≠ "" :=
  ⟨rfl, rfl, rfl, rfl, by decide⟩

/-- C10 (amended): provided the empty string is not among the keys,
`UniqueKeyMatchOf` depends only on the set of top-level keys: any two
documents whose key lists are permutations of each other (any two iteration
orders of the same Go map) give the same result. -/
theorem unique_key_match_order_invariant (c1 c2 : Config) (k : String) (ig : List Char)
    (hperm : List.Perm (c1.map Prod.fst) (c2.map Prod.fst))
    (hne : "" ∉ c1.map Prod.fst) :
    UniqueKeyMatchOf c1 k ig = UniqueKeyMatchOf c2 k ig := by
  have hne2 : "" ∉ c2.map Prod.fst := fun hm => hne (hperm.mem_iff.2 hm)
  simp only [UniqueKeyMatchOf]
  rw [ukmLoop_characterization (filterStr ig k) ig (c1.map Prod.fst) hne,
    ukmLoop_characterization (filterStr ig k) ig (c2.map Prod.fst) hne2]
  exact ukmSpec_perm _ _ (hperm.filter _)

/-- C10 witness: two listings of the same two-key document agree. -/
theorem unique_key_match_order_invariant_witness :
    List.Perm (([("aa", Value.vnull), ("bb", Value.vnull)] : Config).map Prod.fst)
      (([("bb", Value.vnull), ("aa", Value.vnull)] : Config).map Prod.fst)
    ∧ ("" ∉ ([("aa", Value.vnull), ("bb", Value.vnull)] : Config).map Prod.fst)
    ∧ UniqueKeyMatchOf [("aa", Value.vnull), ("bb", Value.vnull)] "a" []
        = UniqueKeyMatchOf [("bb", Value.vnull), ("aa", Value.vnull)] "a" [] :=
  ⟨by decide, by decide,
    unique_key_match_order_invariant [("aa", Value.vnull), ("bb", Value.vnull)]
      [("bb", Value.vnull), ("aa", Value.vnull)] "a" [] (by decide) (by decide)⟩

/-- C10 counterexample: the same key set `{"", "x"}` listed in its two
iteration orders gives two different results for the shortcut `""` (`"x"`
against `""`), so the result is not a function of the key set alone. -/
theorem unique_key_match_order_dependence_counterexample :
    List.Perm (([("", Value.vnull), ("x", Value.vnull)] : Config).map Prod.fst)
      (([("x", Value.vnull), ("", Value.vnull)] : Config).map Prod.fst)
    ∧ UniqueKeyMatchOf [("", Value.vnull), ("x", Value.vnull)] "" []
        ≠ UniqueKeyMatchOf [("x", Value.vnull), ("", Value.vnull)] "" [] := by
  constructor
  · decide
  · decide

/-! C8: `Translation.Apply` aborts on a missing source key. -/

theorem translationApply_cons (a b : String) (pre : Translation)
    (cFrom cTo : Config) (sep : String) :
    Translation.Apply ((a, b) :: pre) cFrom cTo sep
      = match Get cFrom (splitTrim a sep) with
        | GetRes.goPanic => ApplyRes.goPanic
        | GetRes.missing => ApplyRes.keyErr (splitTrim a sep) cTo
        | GetRes.found fv =>
          match SetKey cTo fv (splitTrim b sep) with
          | none => ApplyRes.goPanic
          | some cTo2 => Translation.Apply pre cFrom cTo2 sep := rfl

/-- C8: if every pair before it succeeded (leaving the destination document
`cTo2`) and `Get` reports the source path of the next pair absent, then
`Apply` on the whole list returns the key-not-found error immediately: the
pairs after it are not processed, no `Set` is performed for the failing pair,
and the destination keeps exactly the values written by the earlier pairs. -/
theorem translationApply_missing_source_key :
    ∀ (pre : Translation) (rest : Translation) (k v : String)
      (cFrom cTo cTo2 : Config) (sep : String),
      Translation.Apply pre cFrom cTo sep = ApplyRes.success cTo2 →
      Get cFrom (splitTrim k sep) = GetRes.missing →
      Translation.Apply (pre ++ (k, v) :: rest) cFrom cTo sep
        = ApplyRes.keyErr (splitTrim k sep) cTo2 := by
  intro pre
  induction pre with
  | nil =>
    intro rest k v cFrom cTo cTo2 sep hpre hmiss
    have h0 : ApplyRes.success cTo = ApplyRes.success cTo2 := hpre
    injection h0 with h1
    subst h1
    simp only [List.nil_append, translationApply_cons, hmiss]
  | cons hd pre2 ih =>
    obtain ⟨a, b⟩ := hd
    intro rest k v cFrom cTo cTo2 sep hpre hmiss
    rw [translationApply_cons] at hpre
    rw [List.cons_append, translationApply_cons]
    cases hg : Get cFrom (splitTrim a sep) with
    | goPanic => rw [hg] at hpre; simp at hpre
    | missing => rw [hg] at hpre; simp at hpre
    | found fv =>
      rw [hg] at hpre
      simp only at hpre ⊢
      cases hs : SetKey cTo fv (splitTrim b sep) with
      | none => rw [hs] at hpre; simp at hpre
      | some cTo3 =>
        rw [hs] at hpre
        simp only at hpre ⊢
        exact ih rest k v cFrom cTo3 cTo2 sep hpre hmiss

/-- C8 witness: the first pair copies `p` to `q`; the second pair's source
path `z` is absent, so the whole call errors while the destination keeps the
value already copied. -/
theorem translationApply_missing_source_key_witness :
    Translation.Apply [("p", "q")] [("p", Value.vnum 1)] [] "/"
        = ApplyRes.success [("q", Value.vnum 1)]
    ∧ Get [("p", Value.vnum 1)] (splitTrim "z" "/") = GetRes.missing
    ∧ Translation.Apply [("p", "q"), ("z", "w")] [("p", Value.vnum 1)] [] "/"
        = ApplyRes.keyErr (splitTrim "z" "/") [("q", Value.vnum 1)] :=
  ⟨rfl, rfl,
    translationApply_missing_source_key [("p", "q")] [] "z" "w"
      [("p", Value.vnum 1)] [] [("q", Value.vnum 1)] "/" rfl rfl⟩

/-! C9: `CompareTypes` reporting of subject-only keys and one-directionality. -/

theorem compareTypes_nil (ref : Config) (pfx : String) :
    CompareTypes [] ref pfx = ([], []) := by
  rw [CompareTypes.eq_def]

theorem compareTypes_cons (key : String) (v1 : Value) (rest ref : Config) (pfx : String) :
    CompareTypes ((key, v1) :: rest) ref pfx
      = (let p := dotPath pfx key
         let head :=
           match lookupE ref key with
           | some v2 =>
             if typeTag v1 = typeTag v2 then
               match v1, v2 with
               | Value.vdoc d1, Value.vdoc d2 => CompareTypes d1 d2 p
               | _, _ => ([], [])
             else ([p ++ ":" ++ typeTag v1 ++ "!=" ++ typeTag v2], [])
           | none => ([], [p])
         let tail := CompareTypes rest ref pfx
         (head.1 ++ tail.1, head.2 ++ tail.2)) := by
  rw [CompareTypes.eq_def]

theorem compareTypes_cons_absent (key : String) (v : Value) (rest ref : Config) (pfx : String)
    (h : lookupE ref key = none) :
    CompareTypes ((key, v) :: rest) ref pfx
      = ((CompareTypes rest ref pfx).1, dotPath pfx key :: (CompareTypes rest ref pfx).2) := by
  rw [compareTypes_cons]
  simp [h]

theorem compareTypes_reports_absent :
    ∀ (c ref : Config) (pfx key : String) (v : Value),
      (key, v) ∈ c → lookupE ref key = none →
      dotPath pfx key ∈ (CompareTypes c ref pfx).2 := by
  intro c
  induction c with
  | nil => intro ref pfx key v hmem _; simp at hmem
  | cons hd tl ih =>
    obtain ⟨k1, w⟩ := hd
    intro ref pfx key v hmem h
    rcases List.mem_cons.1 hmem with heq | hmem2
    · injection heq with hk hv
      subst hk
      rw [compareTypes_cons_absent _ _ _ _ _ h]
      simp
    · rw [compareTypes_cons]
      simp only [List.mem_append]
      exact Or.inr (ih ref pfx key v hmem2 h)

theorem compareTypes_no_descent :
    ∀ (c1 : Config) (key : String) (v v2 : Value) (c2 ref : Config) (pfx : String),
      lookupE ref key = none →
      CompareTypes (c1 ++ (key, v) :: c2) ref pfx
        = CompareTypes (c1 ++ (key, v2) :: c2) ref pfx := by
  intro c1
  induction c1 with
  | nil =>
    intro key v v2 c2 ref pfx h
    simp only [List.nil_append]
    rw [compareTypes_cons_absent _ _ _ _ _ h, compareTypes_cons_absent _ _ _ _ _ h]
  | cons hd tl ih =>
    obtain ⟨k1, w⟩ := hd
    intro key v v2 c2 ref pfx h
    simp only [List.cons_append]
    rw [compareTypes_cons, compareTypes_cons]
    rw [ih key v v2 c2 ref pfx h]

theorem compareTypes_ignores_new_ref_key :
    ∀ (c : Config) (k2 : String) (v2 : Value) (ref : Config) (pfx : String),
      k2 ∉ c.map Prod.fst →
      CompareTypes c ((k2, v2) :: ref) pfx = CompareTypes c ref pfx := by
  intro c
  induction c with
  | nil =>
    intro k2 v2 ref pfx _
    rw [compareTypes_nil, compareTypes_nil]
  | cons hd tl ih =>
    obtain ⟨k1, w⟩ := hd
    intro k2 v2 ref pfx hk2
    simp only [List.map_cons, List.mem_cons, not_or] at hk2
    have hne : k1 ≠ k2 := fun hh => hk2.1 hh.symm
    rw [compareTypes_cons, compareTypes_cons]
    have hlk : lookupE ((k2, v2) :: ref) k1 = lookupE ref k1 := by
      simp [lookupE, hne]
    rw [hlk, ih k2 v2 ref pfx hk2.2]

/-- C9: `CompareTypes` is one-directional, subject to reference.  First: every
subject key absent from the reference contributes its dotted path to
`notFound`.  Second: the contribution of such a key is independent of the
value bound to it - the traversal does not descend into that value.  Third:
adding to the reference a key that the subject does not have changes neither
output list, so reference-only keys are never reported. -/
theorem compare_types_one_directional :
    (∀ (c ref : Config) (pfx key : String) (v : Value),
        (key, v) ∈ c → lookupE ref key = none →
        dotPath pfx key ∈ (CompareTypes c ref pfx).2)
    ∧ (∀ (c1 : Config) (key : String) (v v2 : Value) (c2 ref : Config) (pfx : String),
        lookupE ref key = none →
        CompareTypes (c1 ++ (key, v) :: c2) ref pfx
          = CompareTypes (c1 ++ (key, v2) :: c2) ref pfx)
    ∧ (∀ (c : Config) (k2 : String) (v2 : Value) (ref : Config) (pfx : String),
        k2 ∉ c.map Prod.fst →
        CompareTypes c ((k2, v2) :: ref) pfx = CompareTypes c ref pfx) :=
  ⟨compareTypes_reports_absent, compareTypes_no_descent, compareTypes_ignores_new_ref_key⟩

/-- C9 witness: concrete instances of the three parts - the nested key `f`
absent from the reference is reported as `c:f`; swapping the value under an
absent key changes nothing; adding the unused key `h` to the reference
changes nothing. -/
theorem compare_types_one_directional_witness :
    (("f", Value.vbool true) ∈ ([("f", Value.vbool true)] : Config)
      ∧ lookupE [] "f" = none
      ∧ dotPath "c" "f" ∈ (CompareTypes [("f", Value.vbool true)] [] "c").2)
    ∧ (lookupE [] "g" = none
      ∧ CompareTypes [("g", Value.vstr "s")] [] "" = CompareTypes [("g", Value.vnum 4)] [] "")
    ∧ ("h" ∉ ([("a", Value.vnull)] : Config).map Prod.fst
      ∧ CompareTypes [("a", Value.vnull)] [("h", Value.vnum 9), ("a", Value.vnull)] ""
          = CompareTypes [("a", Value.vnull)] [("a", Value.vnull)] "") := by
  refine ⟨⟨by simp, rfl, ?_⟩, ⟨rfl, ?_⟩, ⟨by simp, ?_⟩⟩
  · exact compare_types_one_directional.1 [("f", Value.vbool true)] [] "c" "f"
      (Value.vbool true) (by simp) rfl
  · have h2 := compare_types_one_directional.2.1 [] "g" (Value.vstr "s") (Value.vnum 4) [] [] "" rfl
    simpa using h2
  · exact compare_types_one_directional.2.2 _ _ _ _ _ (by simp)
